import Mathlib

/-!
Verification of the Decision Engine scoring core.

The Python sources are shallowly embedded over `ℚ`:
* `decision_model.py` : `compute_stats`, `risk_adjusted_score`;
* `app.py` : `parse_list`, `validate_probs`, and the Compute handler
  (length check, probability validation, rounding to 2 decimals,
  stable sort by score descending).

Definitions come first, theorems follow.
-/

namespace DecisionEngine

/-- The absolute tolerance `1e-6` used by `validate_probs`. -/
def tol : ℚ := 1 / 1000000

/-- Embedding of `decision_model.compute_stats`:
`ev = sum(p * x for x, p in zip(outcomes, probabilities))`,
`var = sum(p * (x - ev) ** 2 for x, p in zip(outcomes, probabilities))`. -/
def compute_stats (outcomes probabilities : List ℚ) : ℚ × ℚ :=
  let ev := ((outcomes.zip probabilities).map fun xp => xp.2 * xp.1).sum
  let var := ((outcomes.zip probabilities).map fun xp => xp.2 * (xp.1 - ev) ^ 2).sum
  (ev, var)

/-- Embedding of `decision_model.risk_adjusted_score`:
`ev, var = compute_stats(...)`; `score = ev - risk_aversion * var`. -/
def risk_adjusted_score (outcomes probabilities : List ℚ) (risk_aversion : ℚ) :
    ℚ × ℚ × ℚ :=
  let s := compute_stats outcomes probabilities
  (s.1, s.2, s.1 - risk_aversion * s.2)

/-- The failure kinds of `validate_probs` (the EmptyDistribution,
NegativeProbability and NormalizationError cases of the spec); the
normalization failure carries the actual computed sum, as the message
`Probabilities must sum to 1. Current sum = {total}` does. -/
inductive ProbError where
  | emptyDistribution : ProbError
  | negativeProbability : ProbError
  | normalizationError : ℚ → ProbError
deriving DecidableEq

/-- Embedding of `app.validate_probs`: empty check, then negativity check,
then the `abs(total - 1.0) > 1e-6` check; success otherwise. -/
def validate_probs (probs : List ℚ) : Except ProbError Unit :=
  if probs.length = 0 then .error .emptyDistribution
  else if probs.any fun p => decide (p < 0) then .error .negativeProbability
  else if |probs.sum - 1| > tol then .error (.normalizationError probs.sum)
  else .ok ()

/-- One match of the pattern `-?(?:\d+\.?\d*|\.\d+)` (sign handled by the
caller in `scanTokensAux`) anchored at the head of the character list:
greedy digits, then an optional dot with greedy fractional digits, or a dot
followed by at least one digit.  Returns the matched token and the
remaining characters, or `none` when no match starts here. -/
def matchNum (l : List Char) : Option (List Char × List Char) :=
  match l with
  | [] => none
  | c :: rest =>
    if c.isDigit then
      if (l.dropWhile Char.isDigit).head? = some '.' then
        some (l.takeWhile Char.isDigit ++
            '.' :: (l.dropWhile Char.isDigit).tail.takeWhile Char.isDigit,
          (l.dropWhile Char.isDigit).tail.dropWhile Char.isDigit)
      else
        some (l.takeWhile Char.isDigit, l.dropWhile Char.isDigit)
    else if c = '.' then
      if rest.head?.any Char.isDigit then
        some ('.' :: rest.takeWhile Char.isDigit, rest.dropWhile Char.isDigit)
      else none
    else none

/-- Embedding of `re.findall` for `-?(?:\d+\.?\d*|\.\d+)`: scan left to
right; at each position try a match (a leading minus only counts when a
number starts right after it, since the group of the regex must match); on
success continue after the match, otherwise advance one character.  The
recursion is fueled; each step consumes at least one character, so the
length of the input (used by `scanTokens`) is always enough fuel, as
`scanTokensAux_congr` proves. -/
def scanTokensAux (fuel : ℕ) (l : List Char) : List (List Char) :=
  match fuel, l with
  | 0, _ => []
  | _ + 1, [] => []
  | fuel + 1, c :: cs =>
    if c = '-' then
      match matchNum cs with
      | some (tok, rest) => ('-' :: tok) :: scanTokensAux fuel rest
      | none => scanTokensAux fuel cs
    else
      match matchNum (c :: cs) with
      | some (tok, rest) => tok :: scanTokensAux fuel rest
      | none => scanTokensAux fuel cs

/-- All regex matches of `-?(?:\d+\.?\d*|\.\d+)` in the input, in order. -/
def scanTokens (l : List Char) : List (List Char) :=
  scanTokensAux l.length l

/-- Value of a digit string, most significant digit first. -/
def digitsToNat (ds : List Char) : ℕ :=
  ds.foldl (fun acc c => 10 * acc + (c.toNat - 48)) 0

/-- Value of an unsigned matched token (digits, optionally a dot and
fractional digits), as the Python `float` conversion reads it. -/
def tokenToRatAux (tok : List Char) : ℚ :=
  match tok.dropWhile Char.isDigit with
  | '.' :: frac =>
    (digitsToNat (tok.takeWhile Char.isDigit) : ℚ) +
      (digitsToNat frac : ℚ) / 10 ^ frac.length
  | _ => (digitsToNat (tok.takeWhile Char.isDigit) : ℚ)

/-- Value of a matched token, handling the optional leading minus. -/
def tokenToRat (tok : List Char) : ℚ :=
  match tok with
  | '-' :: rest => -(tokenToRatAux rest)
  | _ => tokenToRatAux tok

/-- Embedding of `app.parse_list`:
`[float(n) for n in re.findall(pattern, s)]`. -/
def parse_list (s : String) : List ℚ :=
  (scanTokens s.data).map tokenToRat

/-- Round to the nearest integer, ties to the even integer, as the Python
built-in `round` does (idealized over `ℚ`). -/
def roundHalfEven (q : ℚ) : ℤ :=
  if q - ⌊q⌋ < 1/2 then ⌊q⌋
  else if q - ⌊q⌋ > 1/2 then ⌊q⌋ + 1
  else if ⌊q⌋ % 2 = 0 then ⌊q⌋ else ⌊q⌋ + 1

/-- Python `round(x, 2)`: round to 2 decimal places, ties to even. -/
def round2 (q : ℚ) : ℚ := (roundHalfEven (q * 100) : ℚ) / 100

/-- One row of the results table built by the Compute handler:
`{"Option": name, "EV": round(ev, 2), "Var": round(var, 2),
"Score": round(score, 2)}`. -/
structure Result where
  name : String
  ev : ℚ
  var : ℚ
  score : ℚ
deriving DecidableEq

/-- The error kinds the Compute handler can stop with: the length check
(`outcomes and probabilities must have the same length`, the spec
LengthMismatch) or a probability-validation failure. -/
inductive ErrKind where
  | lengthMismatch : ErrKind
  | probError : ProbError → ErrKind
deriving DecidableEq

/-- An error reported by the Compute handler, naming the offending option
(the handler writes `st.error(f"{name}: {msg}")` and stops). -/
structure BatchError where
  name : String
  kind : ErrKind
deriving DecidableEq

/-- One iteration of the Compute handler loop for one option: the length
check first, then `validate_probs`, then `risk_adjusted_score`, and the
row is stored with every statistic rounded to 2 decimals. -/
def process_option (name : String) (outcomes probs : List ℚ) (lam : ℚ) :
    Except BatchError Result :=
  if outcomes.length ≠ probs.length then
    .error ⟨name, .lengthMismatch⟩
  else
    match validate_probs probs with
    | .error e => .error ⟨name, .probError e⟩
    | .ok _ =>
      let r := risk_adjusted_score outcomes probs lam
      .ok ⟨name, round2 r.1, round2 r.2.1, round2 r.2.2⟩

/-- The Compute handler loop: process options in input order, abort at the
first failing one (`st.stop()`), otherwise collect the rounded rows in
input order. -/
def collect_results (opts : List (String × List ℚ × List ℚ)) (lam : ℚ) :
    Except BatchError (List Result) :=
  match opts with
  | [] => .ok []
  | o :: rest =>
    match process_option o.1 o.2.1 o.2.2 lam with
    | .error e => .error e
    | .ok r =>
      match collect_results rest lam with
      | .error e => .error e
      | .ok rs => .ok (r :: rs)

/-- The comparison modelling
`sorted(results, key=lambda r: r["Score"], reverse=True)`:
higher rounded score first. -/
def resultLe (a b : Result) : Bool := decide (b.score ≤ a.score)

/-- The whole Compute handler: collect the per-option rows (aborting on the
first failure), then sort by rounded score descending.  The Python `sorted`
is a stable sort, and `List.mergeSort` is the stable sort of the library,
so the embedding is exact. -/
def compute_batch (opts : List (String × List ℚ × List ℚ)) (lam : ℚ) :
    Except BatchError (List Result) :=
  match collect_results opts lam with
  | .error e => .error e
  | .ok results => .ok (results.mergeSort resultLe)

/-- A zipped, mapped sum over two equal-length lists is the index-wise sum. -/
theorem zip_map_sum (f : ℚ × ℚ → ℚ) :
    ∀ os ps : List ℚ, os.length = ps.length →
      ((os.zip ps).map f).sum =
        ∑ i ∈ Finset.range os.length, f (os.getD i 0, ps.getD i 0)
  | [], [], _ => by simp
  | [], p :: ps, h => by simp at h
  | x :: os, [], h => by simp at h
  | x :: os, p :: ps, h => by
    have ih := zip_map_sum f os ps (by simpa using h)
    simp only [List.zip_cons_cons, List.map_cons, List.sum_cons, List.length_cons]
    rw [Finset.sum_range_succ']
    simp only [List.getD_cons_succ, List.getD_cons_zero]
    rw [ih]
    ring

/-- Claim C1: for equal-length outcome and probability lists, `compute_stats`
returns exactly the pair (EV, Variance) with `EV = Σ pᵢ·xᵢ` and
`Variance = Σ pᵢ·(xᵢ − EV)²`, the probability-weighted second central moment
with no Bessel correction, summed over all indices. -/
theorem compute_stats_spec (os ps : List ℚ) (h : os.length = ps.length) :
    compute_stats os ps =
      (∑ i ∈ Finset.range os.length, ps.getD i 0 * os.getD i 0,
       ∑ i ∈ Finset.range os.length,
         ps.getD i 0 *
           (os.getD i 0 - ∑ j ∈ Finset.range os.length, ps.getD j 0 * os.getD j 0) ^ 2) := by
  simp only [compute_stats]
  refine Prod.ext ?_ ?_
  · exact zip_map_sum (fun xp => xp.2 * xp.1) os ps h
  · rw [zip_map_sum
        (fun xp => xp.2 * (xp.1 - ((os.zip ps).map fun yq => yq.2 * yq.1).sum) ^ 2) os ps h,
      zip_map_sum (fun xp => xp.2 * xp.1) os ps h]

/-- Witness for C1 at outcomes `[10, 0]`, probabilities `[0.5, 0.5]`. -/
theorem compute_stats_spec_witness :
    ([10, 0] : List ℚ).length = ([1/2, 1/2] : List ℚ).length ∧
      compute_stats [10, 0] [1/2, 1/2] =
        (∑ i ∈ Finset.range 2,
            ([1/2, 1/2] : List ℚ).getD i 0 * ([10, 0] : List ℚ).getD i 0,
         ∑ i ∈ Finset.range 2,
            ([1/2, 1/2] : List ℚ).getD i 0 *
              (([10, 0] : List ℚ).getD i 0 -
                ∑ j ∈ Finset.range 2,
                  ([1/2, 1/2] : List ℚ).getD j 0 * ([10, 0] : List ℚ).getD j 0) ^ 2) :=
  ⟨rfl, compute_stats_spec [10, 0] [1/2, 1/2] rfl⟩

/-- Claim C2: `risk_adjusted_score` returns `Score = EV − λ · Variance` for
every outcome list, probability list and (unclamped, unvalidated) real `λ`;
it is a total function with no failure modes. -/
theorem risk_adjusted_score_spec (os ps : List ℚ) (lam : ℚ) :
    risk_adjusted_score os ps lam =
      ((compute_stats os ps).1, (compute_stats os ps).2,
       (compute_stats os ps).1 - lam * (compute_stats os ps).2) := rfl

/-- Claim C3: `validate_probs` succeeds iff the list is non-empty, all
entries are non-negative (zero permitted) and the sum is within `1e-6` of 1;
each failure reports its specific reason, and the normalization failure
carries the actual computed sum. -/
theorem validate_probs_spec (p : List ℚ) :
    (validate_probs p = .ok () ↔
      p ≠ [] ∧ (∀ x ∈ p, 0 ≤ x) ∧ |p.sum - 1| ≤ tol) ∧
    (validate_probs p = .error .emptyDistribution ↔ p = []) ∧
    (validate_probs p = .error .negativeProbability ↔
      p ≠ [] ∧ ∃ x ∈ p, x < 0) ∧
    (∀ t, validate_probs p = .error (.normalizationError t) → t = p.sum) := by
  simp only [validate_probs]
  by_cases h1 : p.length = 0
  · have hp : p = [] := List.length_eq_zero.mp h1
    subst hp
    refine ⟨?_, ?_, ?_, ?_⟩
    · simp
    · simp
    · simp
    · intro t ht
      simp at ht
  · have hp : p ≠ [] := fun hc => h1 (by simp [hc])
    simp only [if_neg h1]
    by_cases h2 : (p.any fun x => decide (x < 0)) = true
    · have hneg : ∃ x ∈ p, x < 0 := by simpa using h2
      simp only [if_pos h2]
      refine ⟨iff_of_false (by simp) ?_, iff_of_false (by simp) hp,
        iff_of_true (by simp) ⟨hp, hneg⟩, ?_⟩
      · rintro ⟨-, hall, -⟩
        obtain ⟨x, hx, hxlt⟩ := hneg
        exact absurd (hall x hx) (not_le.mpr hxlt)
      · intro t ht
        simp at ht
    · have hall : ∀ x ∈ p, 0 ≤ x := by
        intro x hx
        by_contra hc
        exact h2 (by simpa using ⟨x, hx, not_le.mp hc⟩)
      simp only [if_neg h2]
      by_cases h3 : |p.sum - 1| > tol
      · simp only [if_pos h3]
        refine ⟨iff_of_false (by simp) ?_, iff_of_false (by simp) hp,
          iff_of_false (by simp) ?_, ?_⟩
        · rintro ⟨-, -, hle⟩
          exact absurd hle (not_le.mpr h3)
        · rintro ⟨-, x, hx, hxlt⟩
          exact absurd (hall x hx) (not_le.mpr hxlt)
        · intro t ht
          simp only [Except.error.injEq, ProbError.normalizationError.injEq] at ht
          exact ht.symm
      · simp only [if_neg h3]
        refine ⟨iff_of_true (by simp) ⟨hp, hall, not_lt.mp h3⟩, iff_of_false (by simp) hp,
          iff_of_false (by simp) ?_, ?_⟩
        · rintro ⟨-, x, hx, hxlt⟩
          exact absurd (hall x hx) (not_le.mpr hxlt)
        · intro t ht
          simp at ht

/-- Witness for C3 at the distribution `[0.5, 0.5]`. -/
theorem validate_probs_spec_witness :
    validate_probs [(1 : ℚ)/2, 1/2] = .ok () :=
  ((validate_probs_spec [(1 : ℚ)/2, 1/2]).1).mpr
    ⟨by simp, by norm_num, by norm_num [tol]⟩

/-- `zip` only sees the common prefix of its two arguments. -/
theorem zip_take_min (os ps : List ℚ) :
    (os.take (min os.length ps.length)).zip (ps.take (min os.length ps.length)) =
      os.zip ps := by
  induction os generalizing ps with
  | nil => simp
  | cons x os ih =>
    cases ps with
    | nil => simp
    | cons p ps =>
      simp only [List.length_cons, Nat.succ_min_succ, List.take_succ_cons,
        List.zip_cons_cons, ih]

/-- `compute_stats` only depends on the zip of its arguments. -/
theorem compute_stats_congr_zip (os ps os' ps' : List ℚ)
    (h : os.zip ps = os'.zip ps') :
    compute_stats os ps = compute_stats os' ps' := by
  simp only [compute_stats, h]

/-- Claim C9: on mismatched lengths `compute_stats` does not fail; it
silently computes EV and Variance over the common prefix of the two lists
(the pairwise zip stops at the shorter one). -/
theorem compute_stats_truncation (os ps : List ℚ) :
    compute_stats os ps =
      compute_stats (os.take (min os.length ps.length))
        (ps.take (min os.length ps.length)) :=
  (compute_stats_congr_zip _ _ _ _ (zip_take_min os ps)).symm

/-- A successful `matchNum` consumes at least one character. -/
theorem matchNum_rest_length :
    ∀ l tok rest, matchNum l = some (tok, rest) → rest.length < l.length := by
  intro l tok rest h
  match l with
  | [] => simp [matchNum] at h
  | c :: cs =>
    simp only [matchNum] at h
    have hdw : (c :: cs).dropWhile Char.isDigit = if c.isDigit then
        cs.dropWhile Char.isDigit else c :: cs := by
      by_cases hd : c.isDigit <;> simp [List.dropWhile_cons, hd]
    by_cases hd : c.isDigit
    · rw [if_pos hd] at h
      rw [hdw, if_pos hd] at h
      have hlen : (cs.dropWhile Char.isDigit).length ≤ cs.length :=
        (List.dropWhile_sublist Char.isDigit).length_le
      by_cases hdot : (cs.dropWhile Char.isDigit).head? = some '.'
      · rw [if_pos hdot] at h
        simp only [Option.some.injEq, Prod.mk.injEq] at h
        have h2 : ((cs.dropWhile Char.isDigit).tail.dropWhile Char.isDigit).length ≤
            (cs.dropWhile Char.isDigit).tail.length :=
          (List.dropWhile_sublist Char.isDigit).length_le
        have h3 : (cs.dropWhile Char.isDigit).tail.length =
            (cs.dropWhile Char.isDigit).length - 1 := List.length_tail _
        rw [← h.2]
        simp only [List.length_cons]
        omega
      · rw [if_neg hdot] at h
        simp only [Option.some.injEq, Prod.mk.injEq] at h
        rw [← h.2]
        simp only [List.length_cons]
        omega
    · rw [if_neg hd] at h
      by_cases hdot : c = '.'
      · rw [if_pos hdot] at h
        by_cases hnext : cs.head?.any Char.isDigit
        · rw [if_pos hnext] at h
          simp only [Option.some.injEq, Prod.mk.injEq] at h
          have h2 : (cs.dropWhile Char.isDigit).length ≤ cs.length :=
            (List.dropWhile_sublist Char.isDigit).length_le
          rw [← h.2]
          simp only [List.length_cons]
          omega
        · rw [if_neg hnext] at h
          simp at h
      · rw [if_neg hdot] at h
        simp at h

/-- Any fuel at least the length of the input gives the same scan, so the
fuel in `scanTokens` is irrelevant slack and the scan behaves as the
unbounded left-to-right scan. -/
theorem scanTokensAux_congr :
    ∀ fuel fuel' : ℕ, ∀ l : List Char, l.length ≤ fuel → l.length ≤ fuel' →
      scanTokensAux fuel l = scanTokensAux fuel' l := by
  intro fuel
  induction fuel with
  | zero =>
    intro fuel' l h h'
    have hl : l = [] := List.length_eq_zero.mp (Nat.le_zero.mp h)
    subst hl
    cases fuel' <;> rfl
  | succ fuel ih =>
    intro fuel' l h h'
    cases l with
    | nil => cases fuel' <;> rfl
    | cons c cs =>
      cases fuel' with
      | zero => simp at h'
      | succ fuel' =>
        simp only [scanTokensAux]
        simp only [List.length_cons] at h h'
        by_cases hc : c = '-'
        · rw [if_pos hc, if_pos hc]
          cases hm : matchNum cs with
          | none =>
            dsimp only
            exact ih fuel' cs (by omega) (by omega)
          | some tr =>
            obtain ⟨tok, rest⟩ := tr
            have hr := matchNum_rest_length cs tok rest hm
            dsimp only
            rw [ih fuel' rest (by omega) (by omega)]
        · rw [if_neg hc, if_neg hc]
          cases hm : matchNum (c :: cs) with
          | none =>
            dsimp only
            exact ih fuel' cs (by omega) (by omega)
          | some tr =>
            obtain ⟨tok, rest⟩ := tr
            have hr := matchNum_rest_length (c :: cs) tok rest hm
            simp only [List.length_cons] at hr
            dsimp only
            rw [ih fuel' rest (by omega) (by omega)]

/-- Claim C8: the lenient parser extracts the signed-decimal substrings in
order of appearance, never fails on malformed non-numeric input (it returns
the numbers it finds, possibly none), preserves input order and does not
deduplicate: parsing `"10€, 0€"` yields `[10, 0]`, parsing
`"-2.5 hours, .5"` yields `[-2.5, 0.5]`, pure text yields `[]`, and a
repeated value is kept twice. -/
theorem parse_list_spec :
    parse_list "10€, 0€" = [10, 0] ∧
    parse_list "-2.5 hours, .5" = [-(5/2 : ℚ), 1/2] ∧
    parse_list "abc" = [] ∧
    parse_list "5 and 5" = [5, 5] := by
  refine ⟨?_, ?_, ?_, ?_⟩
  · simp +decide [parse_list, scanTokens, scanTokensAux, matchNum, tokenToRat,
      tokenToRatAux, digitsToNat]
  · simp +decide [parse_list, scanTokens, scanTokensAux, matchNum, tokenToRat,
      tokenToRatAux, digitsToNat]
    norm_num
  · simp +decide [parse_list, scanTokens, scanTokensAux, matchNum]
  · simp +decide [parse_list, scanTokens, scanTokensAux, matchNum, tokenToRat,
      tokenToRatAux, digitsToNat]

/-- Sorting a two-element list is a single comparison. -/
theorem mergeSort_pair {α : Type} (le : α → α → Bool) (a b : α) :
    [a, b].mergeSort le = if le a b then [a, b] else [b, a] := by
  rw [List.mergeSort]
  simp [List.splitInTwo, List.splitAt_eq, List.merge]

/-- The score comparison is transitive. -/
theorem resultLe_trans : ∀ a b c : Result,
    resultLe a b → resultLe b c → resultLe a c := by
  intro a b c hab hbc
  simp only [resultLe, decide_eq_true_eq] at *
  exact le_trans hbc hab

/-- The score comparison is total. -/
theorem resultLe_total : ∀ a b : Result, resultLe a b || resultLe b a := by
  intro a b
  simp only [resultLe]
  rcases le_total a.score b.score with h | h <;> simp [h]

/-- Stability of the ranking: the rows of a given score class appear in the
sorted output exactly as they appear in the input. -/
theorem mergeSort_score_filter (base : List Result) (s : ℚ) :
    (base.mergeSort resultLe).filter (fun r => decide (r.score = s)) =
      base.filter (fun r => decide (r.score = s)) := by
  have hmem : ∀ a ∈ base.filter (fun r => decide (r.score = s)), a.score = s := by
    intro a ha
    have h2 := List.of_mem_filter ha
    simpa using h2
  have hpair : (base.filter (fun r => decide (r.score = s))).Pairwise
      (fun a b => resultLe a b = true) := by
    refine List.pairwise_of_forall_mem_list ?_
    intro a ha b hb
    simp only [resultLe, decide_eq_true_eq]
    rw [hmem a ha, hmem b hb]
  have hsub : List.Sublist (base.filter (fun r => decide (r.score = s)))
      (base.mergeSort resultLe) :=
    List.sublist_mergeSort resultLe_trans resultLe_total hpair
      (List.filter_sublist base)
  have hsub2 : List.Sublist (base.filter (fun r => decide (r.score = s)))
      ((base.mergeSort resultLe).filter (fun r => decide (r.score = s))) := by
    have h2 := hsub.filter (fun r => decide (r.score = s))
    rwa [List.filter_eq_self.mpr (fun a ha => by simp [hmem a ha])] at h2
  have hlen : ((base.mergeSort resultLe).filter
        (fun r => decide (r.score = s))).length =
      (base.filter (fun r => decide (r.score = s))).length :=
    ((List.mergeSort_perm base resultLe).filter _).length_eq
  exact (hsub2.eq_of_length hlen.symm).symm

/-- The sorted output is descending in score. -/
theorem mergeSort_desc (base : List Result) :
    (base.mergeSort resultLe).Pairwise (fun a b => b.score ≤ a.score) := by
  have h := List.sorted_mergeSort resultLe_trans resultLe_total base
  exact h.imp (by intro a b hab; simpa [resultLe] using hab)

/-- `find?` only depends on the values of the predicate on the list. -/
theorem find?_congr_mem {α : Type} (f g : α → Bool) :
    ∀ l : List α, (∀ b ∈ l, f b = g b) → l.find? f = l.find? g
  | [], _ => rfl
  | a :: l, h => by
    have ha := h a (List.mem_cons_self a l)
    by_cases hfa : f a = true
    · rw [List.find?_cons_of_pos _ hfa, List.find?_cons_of_pos _ (ha ▸ hfa)]
    · have hga : ¬g a = true := by rw [← ha]; exact hfa
      rw [List.find?_cons_of_neg _ hfa, List.find?_cons_of_neg _ hga]
      exact find?_congr_mem f g l fun b hb => h b (List.mem_cons_of_mem a hb)

/-- The head of the sorted output is the first input row of maximal score:
ties at the top are resolved silently by input position. -/
theorem mergeSort_head_first_max (base : List Result) :
    (base.mergeSort resultLe).head? =
      base.find? fun b => base.all fun c => decide (c.score ≤ b.score) := by
  cases hrs : base.mergeSort resultLe with
  | nil =>
    have hb : base = [] := by
      have hperm := List.mergeSort_perm base resultLe
      rw [hrs] at hperm
      exact hperm.symm.eq_nil
    subst hb
    rfl
  | cons r tl =>
    have hperm := List.mergeSort_perm base resultLe
    rw [hrs] at hperm
    have hrmem : r ∈ base := hperm.mem_iff.mp (List.mem_cons_self r tl)
    have hdesc : (r :: tl).Pairwise fun a b => b.score ≤ a.score := by
      have h2 := mergeSort_desc base
      rwa [hrs] at h2
    have hmax : ∀ b ∈ base, b.score ≤ r.score := by
      intro b hb
      have hb2 : b ∈ r :: tl := hperm.mem_iff.mpr hb
      rcases List.mem_cons.mp hb2 with hb3 | hb3
      · rw [hb3]
      · exact List.rel_of_pairwise_cons hdesc hb3
    have hcong : ∀ b ∈ base,
        (base.all fun c => decide (c.score ≤ b.score)) =
          decide (b.score = r.score) := by
      intro b hb
      by_cases h : b.score = r.score
      · have h1 : (base.all fun c => decide (c.score ≤ b.score)) = true := by
          simp only [List.all_eq_true, decide_eq_true_eq]
          intro c hc
          rw [h]
          exact hmax c hc
        rw [h1, h]
        simp
      · have hlt : b.score < r.score := lt_of_le_of_ne (hmax b hb) h
        have h1 : (base.all fun c => decide (c.score ≤ b.score)) = false := by
          simp only [List.all_eq_false, decide_eq_true_eq]
          exact ⟨r, hrmem, by simpa using not_le.mpr hlt⟩
        rw [h1]
        simp [h]
    rw [find?_congr_mem _ _ base hcong, ← List.filter_head?,
      ← mergeSort_score_filter base r.score, hrs]
    simp [List.filter_cons]

/-- Any error the per-option step reports names that option. -/
theorem process_option_error_name (name : String) (os ps : List ℚ) (lam : ℚ)
    (e : BatchError) (h : process_option name os ps lam = .error e) :
    e.name = name := by
  simp only [process_option] at h
  by_cases hl : os.length ≠ ps.length
  · rw [if_pos hl] at h
    cases h
    rfl
  · rw [if_neg hl] at h
    cases hv : validate_probs ps with
    | error pe =>
      rw [hv] at h
      cases h
      rfl
    | ok u =>
      rw [hv] at h
      simp at h

/-- The handler loop stops at the first failing option and returns its
error. -/
theorem collect_results_error_of_first
    (pre post : List (String × List ℚ × List ℚ)) (o : String × List ℚ × List ℚ)
    (lam : ℚ) (e : BatchError)
    (hpre : ∀ p ∈ pre, ∃ r, process_option p.1 p.2.1 p.2.2 lam = .ok r)
    (herr : process_option o.1 o.2.1 o.2.2 lam = .error e) :
    collect_results (pre ++ o :: post) lam = .error e := by
  induction pre with
  | nil => simp [collect_results, herr]
  | cons p pre ih =>
    obtain ⟨r, hr⟩ := hpre p (List.mem_cons_self p pre)
    have ih2 := ih fun q hq => hpre q (List.mem_cons_of_mem p hq)
    simp [collect_results, hr, ih2]

/-- Claim C7: an option whose outcome and probability lists have different
lengths is rejected with the length-mismatch error by the Compute handler
itself (before any statistic is computed; `compute_stats` contains no such
check); when the option heads the batch the whole computation reports
exactly that error. -/
theorem length_mismatch_rejected (name : String) (os ps : List ℚ)
    (rest : List (String × List ℚ × List ℚ)) (lam : ℚ)
    (h : os.length ≠ ps.length) :
    process_option name os ps lam = .error ⟨name, ErrKind.lengthMismatch⟩ ∧
    compute_batch ((name, os, ps) :: rest) lam =
      .error ⟨name, ErrKind.lengthMismatch⟩ := by
  have h1 : process_option name os ps lam = .error ⟨name, ErrKind.lengthMismatch⟩ := by
    simp [process_option, h]
  exact ⟨h1, by simp [compute_batch, collect_results, h1]⟩

/-- Witness for C7 at 3 outcomes and 2 probabilities. -/
theorem length_mismatch_rejected_witness :
    ([1, 2, 3] : List ℚ).length ≠ ([1/2, 1/2] : List ℚ).length ∧
    process_option "A" [1, 2, 3] [1/2, 1/2] 0 =
      .error ⟨"A", ErrKind.lengthMismatch⟩ ∧
    compute_batch [("A", [1, 2, 3], [1/2, 1/2])] 0 =
      .error ⟨"A", ErrKind.lengthMismatch⟩ := by
  have h := length_mismatch_rejected "A" [1, 2, 3] [1/2, 1/2] [] 0 (by simp)
  exact ⟨by simp, h.1, h.2⟩

/-- Claim C6: when the batch contains a failing option (every option before
it valid), the whole ranking computation aborts with the error of that
first offending option, the error names it, and no ranking is produced
(the result is an error, so the valid options are not ranked and the bad
one is not silently dropped). -/
theorem batch_aborts_on_first_invalid
    (pre post : List (String × List ℚ × List ℚ)) (o : String × List ℚ × List ℚ)
    (lam : ℚ) (e : BatchError)
    (hpre : ∀ p ∈ pre, ∃ r, process_option p.1 p.2.1 p.2.2 lam = .ok r)
    (herr : process_option o.1 o.2.1 o.2.2 lam = .error e) :
    e.name = o.1 ∧ compute_batch (pre ++ o :: post) lam = .error e := by
  have h1 := collect_results_error_of_first pre post o lam e hpre herr
  exact ⟨process_option_error_name _ _ _ _ _ herr, by simp [compute_batch, h1]⟩

/-- Witness for C6: a valid option, then a mismatched one, then another
valid one; the batch aborts with the error of the middle option. -/
theorem batch_aborts_on_first_invalid_witness :
    compute_batch [("Good", [(5:ℚ)], [1]), ("Bad", [1, 2], [1]), ("Later", [7], [1])]
      (1/10) = .error ⟨"Bad", ErrKind.lengthMismatch⟩ :=
  (batch_aborts_on_first_invalid [("Good", [(5:ℚ)], [1])] [("Later", [7], [1])]
    ("Bad", [1, 2], [1]) (1/10) ⟨"Bad", ErrKind.lengthMismatch⟩
    (by
      intro p hp
      simp only [List.mem_singleton] at hp
      subst hp
      exact ⟨⟨"Good", 5, 0, 5⟩, by
        norm_num [process_option, validate_probs, tol, risk_adjusted_score,
          compute_stats, round2, roundHalfEven]⟩)
    (by norm_num [process_option])).2

/-- Claim C4: when every option of the batch validates, the ranker outputs
a permutation of the computed rows that is sorted by score descending, and
every class of equal scores keeps its original input order (the sort is
stable). -/
theorem ranker_sorted_stable
    (opts : List (String × List ℚ × List ℚ)) (lam : ℚ) (base : List Result) (s : ℚ)
    (h : collect_results opts lam = .ok base) :
    compute_batch opts lam = .ok (base.mergeSort resultLe) ∧
    (base.mergeSort resultLe).Perm base ∧
    (base.mergeSort resultLe).Pairwise (fun a b => b.score ≤ a.score) ∧
    (base.mergeSort resultLe).filter (fun r => decide (r.score = s)) =
      base.filter (fun r => decide (r.score = s)) :=
  ⟨by simp [compute_batch, h], List.mergeSort_perm base resultLe,
   mergeSort_desc base, mergeSort_score_filter base s⟩

/-- Witness for C4 on a concrete two-option batch. -/
theorem ranker_sorted_stable_witness :
    collect_results [("A", [(4:ℚ)], [1]), ("B", [(6:ℚ)], [1])] 0 =
      .ok [⟨"A", 4, 0, 4⟩, ⟨"B", 6, 0, 6⟩] ∧
    compute_batch [("A", [(4:ℚ)], [1]), ("B", [(6:ℚ)], [1])] 0 =
      .ok (([⟨"A", 4, 0, 4⟩, ⟨"B", 6, 0, 6⟩] : List Result).mergeSort resultLe) ∧
    (([⟨"A", 4, 0, 4⟩, ⟨"B", 6, 0, 6⟩] : List Result).mergeSort resultLe).Perm
      [⟨"A", 4, 0, 4⟩, ⟨"B", 6, 0, 6⟩] ∧
    (([⟨"A", 4, 0, 4⟩, ⟨"B", 6, 0, 6⟩] : List Result).mergeSort resultLe).Pairwise
      (fun a b => b.score ≤ a.score) ∧
    (([⟨"A", 4, 0, 4⟩, ⟨"B", 6, 0, 6⟩] : List Result).mergeSort resultLe).filter
        (fun r => decide (r.score = 4)) =
      ([⟨"A", 4, 0, 4⟩, ⟨"B", 6, 0, 6⟩] : List Result).filter
        (fun r => decide (r.score = 4)) := by
  have h : collect_results [("A", [(4:ℚ)], [1]), ("B", [(6:ℚ)], [1])] 0 =
      .ok [⟨"A", 4, 0, 4⟩, ⟨"B", 6, 0, 6⟩] := by
    norm_num [collect_results, process_option, validate_probs, tol,
      risk_adjusted_score, compute_stats, round2, roundHalfEven]
  have h2 := ranker_sorted_stable _ 0 _ 4 h
  exact ⟨h, h2.1, h2.2.1, h2.2.2.1, h2.2.2.2⟩

/-- Amended claim C5: the ranker exposes no tie condition; on a batch with
tied top scores it silently resolves the winner by input position, the head
of the output being the first input row of maximal score. -/
theorem ranker_silently_picks_first_max
    (opts : List (String × List ℚ × List ℚ)) (lam : ℚ) (base : List Result)
    (h : collect_results opts lam = .ok base) :
    compute_batch opts lam = .ok (base.mergeSort resultLe) ∧
    (base.mergeSort resultLe).head? =
      base.find? fun b => base.all fun c => decide (c.score ≤ b.score) :=
  ⟨by simp [compute_batch, h], mergeSort_head_first_max base⟩

/-- Witness for the amended C5 on a concrete tied batch. -/
theorem ranker_silently_picks_first_max_witness :
    collect_results [("A", [(4:ℚ)], [1]), ("B", [(4:ℚ)], [1])] 0 =
      .ok [⟨"A", 4, 0, 4⟩, ⟨"B", 4, 0, 4⟩] ∧
    (([⟨"A", 4, 0, 4⟩, ⟨"B", 4, 0, 4⟩] : List Result).mergeSort resultLe).head? =
      ([⟨"A", 4, 0, 4⟩, ⟨"B", 4, 0, 4⟩] : List Result).find?
        (fun b => ([⟨"A", 4, 0, 4⟩, ⟨"B", 4, 0, 4⟩] : List Result).all
          fun c => decide (c.score ≤ b.score)) := by
  have h : collect_results [("A", [(4:ℚ)], [1]), ("B", [(4:ℚ)], [1])] 0 =
      .ok [⟨"A", 4, 0, 4⟩, ⟨"B", 4, 0, 4⟩] := by
    norm_num [collect_results, process_option, validate_probs, tol,
      risk_adjusted_score, compute_stats, round2, roundHalfEven]
  exact ⟨h, (ranker_silently_picks_first_max _ 0 _ h).2⟩

/-- Counterexample to claim C5: two options with scores equal (well within
the `1e-9` tolerance of the claim) produce as the entire output just the
ordered list of rows, the first input option placed first; no flag or any
other tie indication exists in the output type, so no distinguishable tie
condition is exposed to the caller. -/
theorem tie_flag_counterexample :
    compute_batch [("A", [(4:ℚ)], [1]), ("B", [(4:ℚ)], [1])] 0 =
      .ok [⟨"A", 4, 0, 4⟩, ⟨"B", 4, 0, 4⟩] ∧
    |(⟨"A", 4, 0, 4⟩ : Result).score - (⟨"B", 4, 0, 4⟩ : Result).score| ≤
      1 / 1000000000 := by
  constructor
  · norm_num [compute_batch, collect_results, process_option, validate_probs, tol,
      risk_adjusted_score, compute_stats, round2, roundHalfEven, mergeSort_pair,
      resultLe]
  · norm_num

/-- Claim C10: the ranking works on values rounded to 2 decimals, not on
the exact ones: every stored row carries `round2` of the exact EV, Variance
and Score (so the sort key is the rounded score), and two options whose
exact scores differ by less than half of `0.01` (here `5.001` and `5.004`)
get equal stored scores and are ranked by input position. -/
theorem ranking_uses_rounded_values
    (name : String) (os ps : List ℚ) (lam : ℚ) (r : Result)
    (h : process_option name os ps lam = .ok r) :
    (r.ev = round2 (risk_adjusted_score os ps lam).1 ∧
     r.var = round2 (risk_adjusted_score os ps lam).2.1 ∧
     r.score = round2 (risk_adjusted_score os ps lam).2.2) ∧
    ((risk_adjusted_score [(5001/1000 : ℚ)] [1] 0).2.2 ≠
        (risk_adjusted_score [(5004/1000 : ℚ)] [1] 0).2.2 ∧
     |(risk_adjusted_score [(5001/1000 : ℚ)] [1] 0).2.2 -
        (risk_adjusted_score [(5004/1000 : ℚ)] [1] 0).2.2| < 1/200 ∧
     compute_batch [("A", [(5001/1000 : ℚ)], [1]), ("B", [(5004/1000 : ℚ)], [1])] 0 =
       .ok [⟨"A", 5, 0, 5⟩, ⟨"B", 5, 0, 5⟩]) := by
  constructor
  · simp only [process_option] at h
    by_cases hl : os.length ≠ ps.length
    · rw [if_pos hl] at h
      simp at h
    · rw [if_neg hl] at h
      cases hv : validate_probs ps with
      | error pe =>
        rw [hv] at h
        simp at h
      | ok u =>
        rw [hv] at h
        simp only [Except.ok.injEq] at h
        rw [← h]
        exact ⟨rfl, rfl, rfl⟩
  · refine ⟨?_, ?_, ?_⟩
    · norm_num [risk_adjusted_score, compute_stats]
    · norm_num [risk_adjusted_score, compute_stats]
      rw [abs_of_pos (show (0:ℚ) < 3/1000 by norm_num)]
      norm_num
    · norm_num [compute_batch, collect_results, process_option, validate_probs, tol,
        risk_adjusted_score, compute_stats, round2, roundHalfEven, mergeSort_pair,
        resultLe]

/-- Witness for C10 at the option with single outcome `5.001`. -/
theorem ranking_uses_rounded_values_witness :
    process_option "A" [(5001/1000 : ℚ)] [1] 0 = .ok ⟨"A", 5, 0, 5⟩ ∧
    (⟨"A", 5, 0, 5⟩ : Result).score =
      round2 (risk_adjusted_score [(5001/1000 : ℚ)] [1] 0).2.2 := by
  have hp : process_option "A" [(5001/1000 : ℚ)] [1] 0 = .ok ⟨"A", 5, 0, 5⟩ := by
    norm_num [process_option, validate_probs, tol, risk_adjusted_score,
      compute_stats, round2, roundHalfEven]
  exact ⟨hp, ((ranking_uses_rounded_values "A" _ _ 0 _ hp).1).2.2⟩

end DecisionEngine
